import Mathlib

/-!
# Verification of the letterboxd-bot aggregation core (src/main.rs)

This file gives a shallow embedding of the pure aggregation pipeline of the
weekly movie-digest bot and proves the specification claims about it.

The embedding follows `src/main.rs`:
* the title regex `^(.*?)(\s-\s([★½]+))?$` (line 111) and its use at
  lines 139-146 become `suffixMatch`, `capturesGo` and `parseTitleChars`;
* the link regex `letterboxd\.com/[^/]+/film/([^/]+)/` (line 113) and its
  use at lines 149-152 become `linkMatchAt`, `linkSearch` and `normalizeLink`;
* `calculate_score` / `get_reaction_emoji` (lines 44-64) are embedded over `ℚ`
  (the Rust `f32` arithmetic is exact on every value these functions can
  produce for star counts below `2^22`, so exact rationals are a faithful
  model on the whole domain of interest);
* `create_message` (lines 72-107) becomes `create_message`;
* the aggregation loop of `get_movie_map` (lines 109-174) becomes
  `processItem` / `aggregateRoster` / `get_movie_map`, with the network
  fetch and the RFC-2822 date parser of the external `chrono` crate passed
  in as function parameters (`fetch`, `pd`), and instants as integers
  (seconds), so that `Duration::days(7)` is `7 * 86400`.
-/
/-- The rating glyphs of the regex character class `[★½]`. -/
def isGlyph (c : Char) : Bool := c == '★' || c == '½'

/-- Rust regex `\s` (Unicode `White_Space`), as used in `\s-\s`. -/
def rustWs (c : Char) : Bool :=
  (0x9 ≤ c.toNat && c.toNat ≤ 0xD) || c.toNat == 0x20 || c.toNat == 0x85 ||
  c.toNat == 0xA0 || c.toNat == 0x1680 ||
  (0x2000 ≤ c.toNat && c.toNat ≤ 0x200A) ||
  c.toNat == 0x2028 || c.toNat == 0x2029 || c.toNat == 0x202F ||
  c.toNat == 0x205F || c.toNat == 0x3000

/-- Matcher for the optional group `(\s-\s([★½]+))$` of the title regex: if the
whole remaining input is one whitespace, `'-'`, one whitespace and a non-empty
run of rating glyphs, return that glyph run (capture group 3). -/
def suffixMatch (l : List Char) : Option (List Char) :=
  match l with
  | c1 :: d :: c2 :: rest =>
    if rustWs c1 && d == '-' && rustWs c2 && !rest.isEmpty && rest.all isGlyph
    then some rest else none
  | _ => none

/-- The backtracking search of `^(.*?)(\s-\s([★½]+))?$`: the lazy group 1
grows one character at a time (never across `'\n'`, which the default `.`
does not match); at each boundary the engine first tries the optional
suffix group against the whole remainder, and accepts the empty remainder.
Returns `(group 1, group 3)` on a match. -/
def capturesGo : List Char → List Char → Option (List Char × List Char)
  | pre, [] => some (pre, [])
  | pre, c :: rest =>
    match suffixMatch (c :: rest) with
    | some g => some (pre, g)
    | none => if c == '\n' then none else capturesGo (pre ++ [c]) rest

/-- Title Parser (lines 139-146 of `src/main.rs`): run the anchored regex; on
a match return `(clean_title, rating_raw)` from groups 1 and 3 (a missing
group 3 is the empty token); if the regex does not match at all, fall back to
`(raw_title, "")`. -/
def parseTitleChars (s : List Char) : List Char × List Char :=
  match capturesGo [] s with
  | some r => r
  | none => (s, [])

/-- `HasRatingSuffix s` says the title `s` ends in a rating suffix in the
sense of the regex: whitespace, `'-'`, whitespace, then a non-empty run of
rating glyphs reaching the end of the string. -/
def HasRatingSuffix (s : List Char) : Prop :=
  ∃ t c1 c2 g, s = t ++ c1 :: '-' :: c2 :: g ∧ rustWs c1 = true ∧
    rustWs c2 = true ∧ g ≠ [] ∧ g.all isGlyph = true

/-! ## Rating Scorer (`calculate_score`, `get_reaction_emoji`, lines 44-64) -/

/-- `calculate_score` (lines 44-48): the number of full-star glyphs plus
`1/2` when a half-star glyph occurs. Exact rationals model the `f32`
arithmetic, which is exact on every value reachable here for star counts
below `2^22`. -/
def calculate_score (raw : String) : ℚ :=
  ((raw.data.filter (fun c => c == '★')).length : ℚ) +
    (if raw.data.contains '½' then (1 : ℚ) / 2 else 0)

/-- `get_reaction_emoji` (lines 50-64): the first matching threshold wins. -/
def get_reaction_emoji (score : ℚ) : String :=
  if score = 5 then "🤩"
  else if 4 ≤ score then "🔥"
  else if 3 ≤ score then "🙂"
  else if 2 ≤ score then "😐"
  else if 0 < score then "🤮"
  else "🤔"

/-! ## Link Normalizer (link regex and lines 149-152) -/

/-- The regex character class `[^/]`. -/
def notSlash (c : Char) : Bool := !(c == '/')

/-- Match a literal regex fragment: `dropLit p l = some r` exactly when
`l = p ++ r`. -/
def dropLit : List Char → List Char → Option (List Char)
  | [], l => some l
  | _ :: _, [] => none
  | p :: ps, c :: cs => if p == c then dropLit ps cs else none

/-- One attempt of the link regex `letterboxd\.com/[^/]+/film/([^/]+)/` at a
fixed start position. Each `[^/]+` is forced to the maximal (non-empty) run
of non-slash characters, because the character after it in the pattern is a
literal `'/'`, which `[^/]+` can never consume; after the captured slug run a
further `'/'` must be present. Returns the captured slug. -/
def linkMatchAt (l : List Char) : Option (List Char) :=
  match dropLit "letterboxd.com/".data l with
  | none => none
  | some r1 =>
    if (r1.takeWhile notSlash).isEmpty then none
    else
      match dropLit "/film/".data (r1.dropWhile notSlash) with
      | none => none
      | some r2 =>
        if (r2.takeWhile notSlash).isEmpty then none
        else if (r2.dropWhile notSlash).isEmpty then none
        else some (r2.takeWhile notSlash)

/-- The leftmost search of `Regex::captures`: try every start position, first
success wins. -/
def linkSearch : List Char → Option (List Char)
  | [] => none
  | l@(_ :: rest) =>
    match linkMatchAt l with
    | some slug => some slug
    | none => linkSearch rest

/-- Link Normalizer (lines 149-152 of `src/main.rs`): on a regex match,
rebuild the canonical link `https://letterboxd.com/film/<slug>/` from the
captured slug; otherwise return the link unchanged. -/
def normalizeLink (s : String) : String :=
  match linkSearch s.data with
  | some slug => ⟨"https://letterboxd.com/film/".data ++ slug ++ "/".data⟩
  | none => s

/-! ## Data model (lines 10-19), Digest Renderer (72-107), Feed Aggregator
(109-174) -/

structure ReviewEntry where
  friend_name : String
  rating_raw : String
deriving DecidableEq

structure MovieGroup where
  general_link : String
  reviews : List ReviewEntry
deriving DecidableEq

/-- The `HashMap<String, MovieGroup>` as an association list with unique
keys; map iteration order is irrelevant to the program because the renderer
sorts the keys. -/
abbrev Aggregate := List (String × MovieGroup)

/-- `movie_map.entry(k).and_modify(...).or_insert(...)` (lines 159-165):
append the review to the unique group for `k`, or create a fresh group
carrying this item's normalized link. -/
def mapInsert (m : Aggregate) (k : String) (e : ReviewEntry) (link : String) :
    Aggregate :=
  match m with
  | [] => [(k, ⟨link, [e]⟩)]
  | p :: rest =>
    if p.1 = k then (p.1, ⟨p.2.general_link, p.2.reviews ++ [e]⟩) :: rest
    else p :: mapInsert rest k e link

/-- One review line of `create_message` (lines 88-102): "watched" phrasing
for an empty rating, otherwise "rated" phrasing with the raw token and the
reaction symbol. -/
def reviewLine (r : ReviewEntry) : String :=
  if r.rating_raw = "" then "• *" ++ r.friend_name ++ "* watched 🍿\n"
  else "• *" ++ r.friend_name ++ "* rated (" ++ r.rating_raw ++ ") " ++
    get_reaction_emoji (calculate_score r.rating_raw) ++ "\n"

/-- One movie block of `create_message` (lines 81-104): header line with
title and canonical link, the review lines in stored order, and the blank
separator line. The `none` branch is unreachable because the rendered keys
are drawn from the map itself (`movie_map[movie]` in the source). -/
def movieBlock (m : Aggregate) (movie : String) : String :=
  match m.find? (fun p => p.1 == movie) with
  | some p => "🎬 *" ++ movie ++ "*\n" ++ p.2.general_link ++ "\n" ++
      p.2.reviews.foldl (fun acc r => acc ++ reviewLine r) "" ++ "\n"
  | none => ""

/-- `sorted_movies` (lines 78-79): the map's keys, sorted ascending (Rust's
byte-wise `String` order coincides with Lean's codepoint-lexicographic
`String` order because UTF-8 preserves codepoint order). -/
def sortedKeys (m : Aggregate) : List String :=
  (m.map Prod.fst).insertionSort (fun a b => a ≤ b)

/-- `create_message` (lines 72-107). -/
def create_message (m : Aggregate) : String :=
  if m.isEmpty then "No movies watched this week 😱"
  else (sortedKeys m).foldl (fun acc movie => acc ++ movieBlock m movie)
    "*🍿 Weekly Movie Round-up 🍿*\n\n"

/-- One item of a fetched RSS channel: `title()`, `link()` and `pub_date()`
all return `Option<&str>` (lines 132-136). -/
structure RssItem where
  title : Option String
  link : Option String
  pub_date : Option String
deriving DecidableEq

/-- `clean_title` for an item (lines 135, 139-146). -/
def itemCleanTitle (item : RssItem) : String :=
  ⟨(parseTitleChars (item.title.getD "Unknown Movie").data).1⟩

/-- `rating_raw` for an item (lines 135, 139-146). -/
def itemRatingRaw (item : RssItem) : String :=
  ⟨(parseTitleChars (item.title.getD "Unknown Movie").data).2⟩

/-- `general_link` for an item (lines 136, 149-152). -/
def itemLink (item : RssItem) : String := normalizeLink (item.link.getD "")

/-- `Duration::days(7)` in seconds. -/
def sevenDaysSecs : Int := 7 * 86400

/-- The body of the per-item loop (lines 131-166): skip when the publish
date is absent or unparsable (`pd` models `chrono`'s
`DateTime::parse_from_rfc2822`), skip when the instant is before
`now − 7 days`, otherwise parse, normalize and insert. -/
def processItem (pd : String → Option Int) (now : Int) (friend_name : String)
    (m : Aggregate) (item : RssItem) : Aggregate :=
  match item.pub_date with
  | none => m
  | some ds =>
    match pd ds with
    | none => m
    | some t =>
      if now - sevenDaysSecs ≤ t then
        mapInsert m (itemCleanTitle item) ⟨friend_name, itemRatingRaw item⟩
          (itemLink item)
      else m

/-- Rust `str::trim`: strip leading and trailing Unicode whitespace
(`char::is_whitespace` is the same `White_Space` property as `rustWs`). -/
def rustTrim (s : String) : String :=
  ⟨((s.data.dropWhile rustWs).reverse.dropWhile rustWs).reverse⟩

/-- `record.get(0).unwrap_or("Unknown").trim()` (line 124). -/
def friendNameOf (record : List String) : String :=
  rustTrim ((record[0]?).getD "Unknown")

/-- `format!("https://letterboxd.com/{}/rss/", username)` (line 127). -/
def feedUrl (u : String) : String := "https://letterboxd.com/" ++ u ++ "/rss/"

/-- The roster loop of `get_movie_map` (lines 122-171): a record without a
second field aborts the whole aggregation (`record.get(1).context(...)?`,
line 125); a failing feed fetch/parse skips the friend
(`if let Ok(channel)`, line 130); `fetch` models the network fetch plus RSS
parse keyed by the feed URL. -/
def aggregateRoster (pd : String → Option Int)
    (fetch : String → Option (List RssItem)) (now : Int) :
    List (List String) → Aggregate → Option Aggregate
  | [], m => some m
  | record :: rest, m =>
    match record[1]? with
    | none => none
    | some username =>
      match fetch (feedUrl (rustTrim username)) with
      | none => aggregateRoster pd fetch now rest m
      | some items =>
        aggregateRoster pd fetch now rest
          (items.foldl (processItem pd now (friendNameOf record)) m)

/-- `get_movie_map` (lines 109-174), starting from the empty map. -/
def get_movie_map (pd : String → Option Int)
    (fetch : String → Option (List RssItem)) (now : Int)
    (roster : List (List String)) : Option Aggregate :=
  aggregateRoster pd fetch now roster []

/-- `main`'s use of the aggregate (lines 29-31):
`get_movie_map(..).unwrap_or_default()` then `create_message`. -/
def mainDigest (pd : String → Option Int)
    (fetch : String → Option (List RssItem)) (now : Int)
    (roster : List (List String)) : String :=
  create_message ((get_movie_map pd fetch now roster).getD [])

/-- Total number of stored reviews, used to state inclusion/exclusion. -/
def totalReviews (m : Aggregate) : Nat :=
  (m.map (fun p => p.2.reviews.length)).sum

/-- A date parser for witnesses: every date string parses to instant `0`. -/
def pdZero : String → Option Int := fun _ => some 0

/-- A fetcher for witnesses: every feed fetch fails. -/
def fetchNone : String → Option (List RssItem) := fun _ => none

/-- A fetcher for the `aggregationGrouping` witness: Alice rated Dune four
stars, Bob watched Dune unrated. -/
def fetchAB : String → Option (List RssItem) := fun url =>
  if url = "https://letterboxd.com/alice/rss/" then
    some [⟨some "Dune - ★★★★",
      some "https://letterboxd.com/alice/film/dune/", some "d1"⟩]
  else if url = "https://letterboxd.com/bob/rss/" then
    some [⟨some "Dune", some "https://letterboxd.com/bob/film/dune/",
      some "d2"⟩]
  else none

theorem parseTitle_ex1 : parseTitleChars "The Matrix - ★★★★".data =
    ("The Matrix".data, "★★★★".data) := by decide

theorem parseTitle_ex2 : parseTitleChars "A - ".data = ("A - ".data, []) := by
  decide

theorem parseTitle_ex3 : parseTitleChars "A - ★ - ★".data =
    ("A - ★".data, "★".data) := by decide

theorem rustWs_dash : rustWs '-' = false := by decide

theorem isGlyph_dash : isGlyph '-' = false := by decide

/-- When the whole remainder is exactly a rating suffix, the suffix group
matches and captures the glyph run. -/
theorem suffixMatch_of_decomp (c1 c2 : Char) (g : List Char)
    (h1 : rustWs c1 = true) (h2 : rustWs c2 = true) (hg : g ≠ [])
    (hall : g.all isGlyph = true) :
    suffixMatch (c1 :: '-' :: c2 :: g) = some g := by
  have hne : g.isEmpty = false := by
    cases g with
    | nil => exact absurd rfl hg
    | cons a l => rfl
  simp [suffixMatch, h1, h2, hne, hall]

/-- Inversion: a successful suffix-group match means the remainder is
whitespace, `'-'`, whitespace, then the non-empty captured glyph run. -/
theorem suffixMatch_some (l g : List Char) (h : suffixMatch l = some g) :
    ∃ c1 c2, l = c1 :: '-' :: c2 :: g ∧ rustWs c1 = true ∧ rustWs c2 = true ∧
      g ≠ [] ∧ g.all isGlyph = true := by
  match l with
  | [] => simp [suffixMatch] at h
  | [a] => simp [suffixMatch] at h
  | [a, b] => simp [suffixMatch] at h
  | c1 :: d :: c2 :: rest =>
    simp only [suffixMatch] at h
    split at h
    case isTrue hcond =>
      obtain ⟨⟨⟨⟨hw1, hd⟩, hw2⟩, hne⟩, hglyph⟩ :
          ((((rustWs c1 = true ∧ (d == '-') = true) ∧ rustWs c2 = true) ∧
            (!rest.isEmpty) = true) ∧ rest.all isGlyph = true) := by
        simpa [Bool.and_eq_true] using hcond
      obtain rfl : rest = g := Option.some.inj h
      refine ⟨c1, c2, ?_, hw1, hw2, ?_, hglyph⟩
      · rw [eq_of_beq hd]
      · intro hnil
        rw [hnil] at hne
        simp at hne
    case isFalse => simp at h

/-- No suffix-group match can begin strictly before the decomposition point:
the separator characters and the `'-'` are neither glyphs nor compatible with
the `\s-\s` shape at any earlier offset. -/
theorem suffixMatch_inner (t : List Char) (c1 c2 : Char) (g : List Char)
    (ht : t ≠ []) (h1 : rustWs c1 = true) (h2 : rustWs c2 = true)
    (hall : g.all isGlyph = true) :
    suffixMatch (t ++ c1 :: '-' :: c2 :: g) = none := by
  cases hsm : suffixMatch (t ++ c1 :: '-' :: c2 :: g) with
  | none => rfl
  | some g' =>
    exfalso
    obtain ⟨d1, d2, hshape, hwd1, hwd2, hg', hallg'⟩ :=
      suffixMatch_some _ _ hsm
    match t, ht with
    | [a], _ =>
      -- a :: c1 :: '-' :: c2 :: g = d1 :: '-' :: d2 :: g', so c1 = '-'
      rw [List.cons_append, List.nil_append] at hshape
      simp only [List.cons.injEq] at hshape
      obtain ⟨-, hc1, -⟩ := hshape
      rw [hc1] at h1
      exact absurd h1 (by decide)
    | [a, b], _ =>
      -- rest g' = '-' :: c2 :: g contains '-', not a glyph
      rw [List.cons_append, List.cons_append, List.nil_append] at hshape
      simp only [List.cons.injEq] at hshape
      obtain ⟨-, -, -, hg''⟩ := hshape
      rw [← hg'', List.all_cons, isGlyph_dash, Bool.false_and] at hallg'
      exact absurd hallg' (by decide)
    | a :: b :: x :: t'', _ =>
      -- g' = t'' ++ c1 :: '-' :: c2 :: g contains '-', not a glyph
      rw [List.cons_append, List.cons_append, List.cons_append] at hshape
      simp only [List.cons.injEq] at hshape
      obtain ⟨-, -, -, hg''⟩ := hshape
      have hmem : '-' ∈ g' := by
        rw [← hg'']
        exact List.mem_append_right _ (by simp)
      have := List.all_eq_true.mp hallg' '-' hmem
      rw [isGlyph_dash] at this
      exact absurd this (by decide)

/-- The lazy walk of group 1 reaches the decomposition point whenever the
prefix contains no newline, and returns `(prefix, glyph run)`. -/
theorem capturesGo_decomp (c1 c2 : Char) (g : List Char)
    (h1 : rustWs c1 = true) (h2 : rustWs c2 = true)
    (hg : g ≠ []) (hall : g.all isGlyph = true) :
    ∀ (t pre : List Char), '\n' ∉ t →
      capturesGo pre (t ++ c1 :: '-' :: c2 :: g) = some (pre ++ t, g) := by
  intro t
  induction t with
  | nil =>
    intro pre _
    rw [List.nil_append, List.append_nil]
    cases g with
    | nil => exact absurd rfl hg
    | cons a l =>
      rw [capturesGo, suffixMatch_of_decomp c1 c2 _ h1 h2 hg hall]
  | cons a t' ih =>
    intro pre hnl
    have hs := suffixMatch_inner (a :: t') c1 c2 g (by simp) h1 h2 hall
    rw [List.cons_append] at hs ⊢
    rw [capturesGo, hs]
    have ha : (a == '\n') = false := by
      simp only [List.mem_cons, not_or] at hnl
      simp [beq_iff_eq]
      exact fun h => hnl.1 h.symm
    rw [ha]
    simp only [Bool.false_eq_true, if_false]
    rw [ih (pre ++ [a]) (by simp only [List.mem_cons, not_or] at hnl; exact hnl.2)]
    simp

/-- A newline in the prefix stops the lazy group (the default `.` does not
match `'\n'`), so the regex fails to match at all. -/
theorem capturesGo_newline (c1 c2 : Char) (g : List Char)
    (h1 : rustWs c1 = true) (h2 : rustWs c2 = true)
    (hall : g.all isGlyph = true) :
    ∀ (t pre : List Char), '\n' ∈ t →
      capturesGo pre (t ++ c1 :: '-' :: c2 :: g) = none := by
  intro t
  induction t with
  | nil => intro pre h; simp at h
  | cons a t' ih =>
    intro pre hin
    have hs := suffixMatch_inner (a :: t') c1 c2 g (by simp) h1 h2 hall
    rw [List.cons_append] at hs ⊢
    rw [capturesGo, hs]
    by_cases ha : a = '\n'
    · rw [ha]
      simp
    · have hin' : '\n' ∈ t' := by
        rcases List.mem_cons.mp hin with h | h
        · exact absurd h.symm ha
        · exact h
      have ha' : (a == '\n') = false := by
        simp [beq_iff_eq]
        exact fun h => ha h
      rw [ha']
      simp only [Bool.false_eq_true, if_false]
      exact ih (pre ++ [a]) hin'

/-- On an input with no rating suffix, the walk either consumes the whole
input (group 3 empty) or aborts on a newline; either way no rating token is
produced. -/
theorem capturesGo_noSuffix (s : List Char) (hns : ¬ HasRatingSuffix s) :
    ∀ pre, capturesGo pre s = some (pre ++ s, []) ∨ capturesGo pre s = none := by
  induction s with
  | nil => intro pre; left; simp [capturesGo]
  | cons a s' ih =>
    intro pre
    have hsm : suffixMatch (a :: s') = none := by
      cases h : suffixMatch (a :: s') with
      | none => rfl
      | some g =>
        exfalso
        obtain ⟨c1, c2, hshape, h1, h2, hg, hall⟩ := suffixMatch_some _ _ h
        exact hns ⟨[], c1, c2, g, by rw [List.nil_append]; exact hshape, h1, h2, hg, hall⟩
    rw [capturesGo, hsm]
    by_cases ha : a = '\n'
    · right
      rw [ha]
      simp
    · have ha' : (a == '\n') = false := by
        simp [beq_iff_eq]
        exact fun h => ha h
      rw [ha']
      simp only [Bool.false_eq_true, if_false]
      have hns' : ¬ HasRatingSuffix s' := by
        rintro ⟨t, c1, c2, g, hs, h1, h2, hg, hall⟩
        exact hns ⟨a :: t, c1, c2, g, by rw [hs, List.cons_append], h1, h2, hg, hall⟩
      rcases ih hns' (pre ++ [a]) with h | h
      · left
        rw [h]
        simp
      · right
        exact h

/-- Title Parser on a title that decomposes as `prefix ++ \s-\s ++ glyphs`
with a newline-free prefix: strips the suffix. -/
theorem parseTitle_decomp (t : List Char) (c1 c2 : Char) (g : List Char)
    (h1 : rustWs c1 = true) (h2 : rustWs c2 = true)
    (hg : g ≠ []) (hall : g.all isGlyph = true) (hnl : '\n' ∉ t) :
    parseTitleChars (t ++ c1 :: '-' :: c2 :: g) = (t, g) := by
  unfold parseTitleChars
  rw [capturesGo_decomp c1 c2 g h1 h2 hg hall t [] hnl]
  rw [List.nil_append]

/-- Title Parser on a title with no rating suffix: identity, empty token. -/
theorem parseTitle_noSuffix (s : List Char) (hns : ¬ HasRatingSuffix s) :
    parseTitleChars s = (s, []) := by
  unfold parseTitleChars
  rcases capturesGo_noSuffix s hns [] with h | h <;> rw [h]
  rw [List.nil_append]

/-- Title Parser on a title whose decomposition prefix contains a newline:
the regex fails, so the fallback returns the input unchanged. -/
theorem parseTitle_newline (t : List Char) (c1 c2 : Char) (g : List Char)
    (h1 : rustWs c1 = true) (h2 : rustWs c2 = true)
    (hall : g.all isGlyph = true) (hnl : '\n' ∈ t) :
    parseTitleChars (t ++ c1 :: '-' :: c2 :: g) = (t ++ c1 :: '-' :: c2 :: g, []) := by
  unfold parseTitleChars
  rw [capturesGo_newline c1 c2 g h1 h2 hall t [] hnl]

/-- **C1** (corrected). Title Parser contract, amended to the separator the
code actually uses: the regex separator is `\s-\s` — one whitespace
character, `'-'`, one whitespace character — not the literal `" - "`, and the
lazy group 1 (`.*?`) cannot cross a newline. For every title that splits as
`prefix ++ ws '-' ws ++ glyphs` with a non-empty glyph run and a newline-free
prefix, the parser returns `(prefix, glyph run)`; every title with no such
suffix (including one ending in the bare separator) is returned unchanged
with an empty token, idempotent under re-parsing; a title whose prefix
contains a newline is likewise returned unchanged. -/
theorem titleParser_contract :
    (∀ (t : List Char) (c1 c2 : Char) (g : List Char),
        rustWs c1 = true → rustWs c2 = true → g ≠ [] → g.all isGlyph = true →
        '\n' ∉ t → parseTitleChars (t ++ c1 :: '-' :: c2 :: g) = (t, g)) ∧
    (∀ s : List Char, ¬ HasRatingSuffix s →
        parseTitleChars s = (s, []) ∧
        parseTitleChars (parseTitleChars s).1 = parseTitleChars s) ∧
    (∀ (t : List Char) (c1 c2 : Char) (g : List Char),
        rustWs c1 = true → rustWs c2 = true → g.all isGlyph = true →
        '\n' ∈ t →
        parseTitleChars (t ++ c1 :: '-' :: c2 :: g) =
          (t ++ c1 :: '-' :: c2 :: g, [])) := by
  refine ⟨fun t c1 c2 g h1 h2 hg hall hnl =>
      parseTitle_decomp t c1 c2 g h1 h2 hg hall hnl,
    fun s hns => ?_,
    fun t c1 c2 g h1 h2 hall hnl => parseTitle_newline t c1 c2 g h1 h2 hall hnl⟩
  have h := parseTitle_noSuffix s hns
  refine ⟨h, ?_⟩
  rw [h]
  exact h

/-- **C1 counterexample**: `"A\t-\t★"` contains no space character at all, so
it has no literal `" - "` separator, yet the parser does not return it
unchanged: the regex `\s-\s` accepts the tabs and strips `"\t-\t★"`. -/
theorem titleParser_literal_cex :
    (' ' ∉ "A\t-\t★".data) ∧
    parseTitleChars "A\t-\t★".data = ("A".data, "★".data) ∧
    parseTitleChars "A\t-\t★".data ≠ ("A\t-\t★".data, []) := by decide

/-- Witness for `titleParser_contract` at concrete inputs. -/
theorem titleParser_contract_w :
    parseTitleChars ("The Matrix".data ++ ' ' :: '-' :: ' ' :: "★★★★".data) =
      ("The Matrix".data, "★★★★".data) ∧
    parseTitleChars "AB".data = ("AB".data, []) ∧
    parseTitleChars ("A\n".data ++ ' ' :: '-' :: ' ' :: "★".data) =
      ("A\n".data ++ ' ' :: '-' :: ' ' :: "★".data, []) := by
  refine ⟨titleParser_contract.1 "The Matrix".data ' ' ' ' "★★★★".data
      (by decide) (by decide) (by decide) (by decide) (by decide),
    (titleParser_contract.2.1 "AB".data ?_).1,
    titleParser_contract.2.2 "A\n".data ' ' ' ' "★".data
      (by decide) (by decide) (by decide) (by decide)⟩
  rintro ⟨t, c1, c2, g, hs, -, -, hg, -⟩
  have hlen := congrArg List.length hs
  simp at hlen
  omega

/-- **C7 counterexample**: for the raw title `"A - ★ - ★"` the parser strips
only the outermost suffix; the clean title `"A - ★"` still ends in the
literal `" - ★"`, and re-parsing it yields a non-empty rating token. -/
theorem cleanTitle_invariant_cex :
    parseTitleChars "A - ★ - ★".data = ("A - ★".data, "★".data) ∧
    "A - ★".data = "A".data ++ ' ' :: '-' :: ' ' :: "★".data ∧
    parseTitleChars "A - ★".data = ("A".data, "★".data) ∧
    "★".data ≠ ([] : List Char) := by decide

/-- **C7** (corrected). Clean-title invariant, amended: the clean title
re-parses with an empty rating token for every raw title that does not stack
two rating suffixes (that is, the raw title is not of the form
`t ++ ws '-' ws ++ glyphs ++ ws '-' ws ++ glyphs`); for stacked-suffix raw
titles such as `"A - ★ - ★"` the parser strips only the outermost suffix and
the invariant fails. -/
theorem cleanTitle_invariant (s : List Char)
    (h : ¬ ∃ (t : List Char) (c1 c2 : Char) (g1 : List Char) (c3 c4 : Char)
        (g2 : List Char),
        s = t ++ c1 :: '-' :: c2 :: (g1 ++ c3 :: '-' :: c4 :: g2) ∧
        rustWs c1 = true ∧ rustWs c2 = true ∧ g1 ≠ [] ∧ g1.all isGlyph = true ∧
        rustWs c3 = true ∧ rustWs c4 = true ∧ g2 ≠ [] ∧ g2.all isGlyph = true) :
    parseTitleChars (parseTitleChars s).1 = ((parseTitleChars s).1, []) := by
  by_cases hs : HasRatingSuffix s
  · obtain ⟨t, c1, c2, g, hdecomp, h1, h2, hg, hall⟩ := hs
    by_cases hnl : '\n' ∈ t
    · rw [hdecomp, parseTitle_newline t c1 c2 g h1 h2 hall hnl]
      exact parseTitle_newline t c1 c2 g h1 h2 hall hnl
    · rw [hdecomp, parseTitle_decomp t c1 c2 g h1 h2 hg hall hnl]
      apply parseTitle_noSuffix
      rintro ⟨t', c3, c4, g', ht', h3, h4, hg', hall'⟩
      refine h ⟨t', c3, c4, g', c1, c2, g, ?_, h3, h4, hg', hall', h1, h2, hg, hall⟩
      rw [hdecomp, show t = t' ++ c3 :: '-' :: c4 :: g' from ht']
      simp
  · have h' := parseTitle_noSuffix s hs
    rw [h']
    exact h'

/-- Witness for `cleanTitle_invariant` at a concrete input. -/
theorem cleanTitle_invariant_w :
    parseTitleChars (parseTitleChars "AB".data).1 =
      ((parseTitleChars "AB".data).1, []) := by
  apply cleanTitle_invariant
  rintro ⟨t, c1, c2, g1, c3, c4, g2, hs, -, -, -, -, -, -, -, -⟩
  have hlen := congrArg List.length hs
  simp at hlen
  omega

/-- **C5** (confirmed). Rating Scorer: the score is the count of full-star
glyphs plus `1/2` exactly when a half-star glyph is present; the reaction
symbol is selected by the first matching threshold in priority order; and
the named concrete cases evaluate as the specification demands. -/
theorem ratingScorer_contract :
    (∀ raw : String, calculate_score raw =
        (raw.data.count '★' : ℚ) + (if '½' ∈ raw.data then (1 : ℚ) / 2 else 0)) ∧
    (∀ q : ℚ,
        (q = 5 → get_reaction_emoji q = "🤩") ∧
        (q ≠ 5 → 4 ≤ q → get_reaction_emoji q = "🔥") ∧
        (q < 4 → 3 ≤ q → get_reaction_emoji q = "🙂") ∧
        (q < 3 → 2 ≤ q → get_reaction_emoji q = "😐") ∧
        (q < 2 → 0 < q → get_reaction_emoji q = "🤮") ∧
        (q ≤ 0 → get_reaction_emoji q = "🤔")) ∧
    (calculate_score "★★★★½" = 9 / 2 ∧ get_reaction_emoji (9 / 2) = "🔥" ∧
      calculate_score "★★★★★" = 5 ∧ get_reaction_emoji 5 = "🤩" ∧
      get_reaction_emoji 2 = "😐" ∧ calculate_score "" = 0 ∧
      get_reaction_emoji 0 = "🤔") := by
  refine ⟨fun raw => ?_, fun q => ?_,
    by rw [calculate_score,
        show ("★★★★½".data.filter (fun c => c == '★')).length = 4 from rfl,
        show "★★★★½".data.contains '½' = true from rfl, if_pos rfl]; norm_num,
    by norm_num [get_reaction_emoji],
    by rw [calculate_score,
        show ("★★★★★".data.filter (fun c => c == '★')).length = 5 from rfl,
        show "★★★★★".data.contains '½' = false from rfl]; norm_num,
    by norm_num [get_reaction_emoji],
    by norm_num [get_reaction_emoji],
    by rw [calculate_score,
        show ("".data.filter (fun c => c == '★')).length = 0 from rfl,
        show "".data.contains '½' = false from rfl]; norm_num,
    by norm_num [get_reaction_emoji]⟩
  · unfold calculate_score
    rw [List.count, List.countP_eq_length_filter]
    congr 1
    by_cases hm : '½' ∈ raw.data
    · rw [if_pos (by rw [List.contains, List.elem_iff]; exact hm), if_pos hm]
    · rw [if_neg (fun hc => hm (by rwa [List.contains, List.elem_iff] at hc)),
        if_neg hm]
  · refine ⟨fun h => by rw [get_reaction_emoji, if_pos h],
      fun h1 h2 => by rw [get_reaction_emoji, if_neg h1, if_pos h2],
      fun h1 h2 => by
        rw [get_reaction_emoji, if_neg (by rintro rfl; linarith),
          if_neg (by linarith), if_pos h2],
      fun h1 h2 => by
        rw [get_reaction_emoji, if_neg (by rintro rfl; linarith),
          if_neg (by linarith), if_neg (by linarith), if_pos h2],
      fun h1 h2 => by
        rw [get_reaction_emoji, if_neg (by rintro rfl; linarith),
          if_neg (by linarith), if_neg (by linarith), if_neg (by linarith),
          if_pos h2],
      fun h1 => by
        rw [get_reaction_emoji, if_neg (by rintro rfl; linarith),
          if_neg (by linarith), if_neg (by linarith), if_neg (by linarith),
          if_neg (by linarith)]⟩

/-- Witness for `ratingScorer_contract` at concrete scores. -/
theorem ratingScorer_contract_w :
    get_reaction_emoji 5 = "🤩" ∧ get_reaction_emoji (9 / 2) = "🔥" ∧
      get_reaction_emoji 2 = "😐" :=
  ⟨(ratingScorer_contract.2.1 5).1 rfl,
    (ratingScorer_contract.2.1 (9 / 2)).2.1 (by norm_num) (by norm_num),
    (ratingScorer_contract.2.1 2).2.2.2.1 (by norm_num) (by norm_num)⟩

theorem normalizeLink_ex1 :
    normalizeLink "https://letterboxd.com/alice/film/dune/" =
      "https://letterboxd.com/film/dune/" := by decide

theorem normalizeLink_ex2 : normalizeLink "" = "" := by decide

theorem notSlash_iff (c : Char) : notSlash c = true ↔ c ≠ '/' := by
  simp [notSlash]

theorem dropLit_self_append (p l : List Char) : dropLit p (p ++ l) = some l := by
  induction p with
  | nil => rfl
  | cons a ps ih => simp [dropLit, ih]

theorem dropLit_some (p : List Char) :
    ∀ l r, dropLit p l = some r → l = p ++ r := by
  induction p with
  | nil =>
    intro l r h
    rw [List.nil_append]
    exact Option.some.inj h
  | cons a ps ih =>
    intro l r h
    match l with
    | [] => simp [dropLit] at h
    | c :: cs =>
      rw [dropLit] at h
      split at h
      case isTrue hac =>
        rw [List.cons_append, ← eq_of_beq hac, ih cs r h]
      case isFalse => simp at h

theorem takeWhile_all_append (p : Char → Bool) (u v : List Char)
    (hu : ∀ c ∈ u, p c = true) :
    (u ++ v).takeWhile p = u ++ v.takeWhile p := by
  induction u with
  | nil => simp
  | cons a u' ih =>
    rw [List.cons_append, List.takeWhile_cons, if_pos (hu a (by simp)),
      List.cons_append, ih (fun c hc => hu c (by simp [hc]))]

theorem dropWhile_all_append (p : Char → Bool) (u v : List Char)
    (hu : ∀ c ∈ u, p c = true) :
    (u ++ v).dropWhile p = v.dropWhile p := by
  induction u with
  | nil => simp
  | cons a u' ih =>
    rw [List.cons_append, List.dropWhile_cons, if_pos (hu a (by simp)),
      ih (fun c hc => hu c (by simp [hc]))]

theorem mem_takeWhile (p : Char → Bool) (l : List Char) :
    ∀ a ∈ l.takeWhile p, p a = true := by
  induction l with
  | nil => simp
  | cons c cs ih =>
    intro a ha
    rw [List.takeWhile_cons] at ha
    by_cases hc : p c = true
    · rw [if_pos hc] at ha
      rcases List.mem_cons.mp ha with rfl | ha'
      · exact hc
      · exact ih a ha'
    · rw [if_neg hc] at ha
      simp at ha

theorem dropWhile_head_false (p : Char → Bool) (l : List Char) :
    ∀ c rest, l.dropWhile p = c :: rest → p c = false := by
  induction l with
  | nil => intro c rest h; simp at h
  | cons a l' ih =>
    intro c rest h
    rw [List.dropWhile_cons] at h
    by_cases ha : p a = true
    · rw [if_pos ha] at h
      exact ih c rest h
    · rw [if_neg ha] at h
      injection h with h1 h2
      rw [← h1]
      simpa using ha

/-- The link regex matches at the canonical decomposition point and captures
the slug. -/
theorem linkMatchAt_canonical (u slug rest : List Char) (hu : u ≠ [])
    (hslug : slug ≠ []) (hu' : ∀ c ∈ u, notSlash c = true)
    (hs' : ∀ c ∈ slug, notSlash c = true) :
    linkMatchAt ("letterboxd.com/".data ++
      (u ++ ("/film/".data ++ (slug ++ '/' :: rest)))) = some slug := by
  have hslash : notSlash '/' = false := by decide
  have e1 : (u ++ ("/film/".data ++ (slug ++ '/' :: rest))).takeWhile notSlash
      = u := by
    rw [takeWhile_all_append _ _ _ hu',
      show "/film/".data ++ (slug ++ '/' :: rest) =
        '/' :: ("film/".data ++ (slug ++ '/' :: rest)) from rfl,
      List.takeWhile_cons, if_neg (by simp [hslash]), List.append_nil]
  have e2 : (u ++ ("/film/".data ++ (slug ++ '/' :: rest))).dropWhile notSlash
      = "/film/".data ++ (slug ++ '/' :: rest) := by
    rw [dropWhile_all_append _ _ _ hu',
      show "/film/".data ++ (slug ++ '/' :: rest) =
        '/' :: ("film/".data ++ (slug ++ '/' :: rest)) from rfl,
      List.dropWhile_cons, if_neg (by simp [hslash])]
  have e3 : (slug ++ '/' :: rest).takeWhile notSlash = slug := by
    rw [takeWhile_all_append _ _ _ hs', List.takeWhile_cons,
      if_neg (by simp [hslash]), List.append_nil]
  have e4 : (slug ++ '/' :: rest).dropWhile notSlash = '/' :: rest := by
    rw [dropWhile_all_append _ _ _ hs', List.dropWhile_cons,
      if_neg (by simp [hslash])]
  have hu0 : u.isEmpty = false := by
    cases u with
    | nil => exact absurd rfl hu
    | cons a l => rfl
  have hs0 : slug.isEmpty = false := by
    cases slug with
    | nil => exact absurd rfl hslug
    | cons a l => rfl
  rw [linkMatchAt, dropLit_self_append]
  simp only [e1, e2]
  rw [if_neg (by simp [hu0]), dropLit_self_append]
  simp only [e3, e4]
  rw [if_neg (by simp [hs0]), if_neg (by simp)]

theorem linkSearch_cons_of_some (c : Char) (l slug : List Char)
    (h : linkMatchAt (c :: l) = some slug) : linkSearch (c :: l) = some slug := by
  rw [linkSearch, h]

theorem linkSearch_cons_of_none (c : Char) (l : List Char)
    (h : linkMatchAt (c :: l) = none) : linkSearch (c :: l) = linkSearch l := by
  rw [linkSearch, h]

/-- A start position whose first character does not begin the literal
`letterboxd.com/` cannot match. -/
theorem linkMatchAt_cons_ne (c : Char) (l : List Char)
    (h : ('l' == c) = false) : linkMatchAt (c :: l) = none := by
  rw [linkMatchAt,
    show "letterboxd.com/".data = 'l' :: "etterboxd.com/".data from rfl,
    dropLit, if_neg (by simp_all)]

/-- The leftmost search finds the canonical link shape after the fixed
`https://` scheme of a feed item link. -/
theorem linkSearch_canonical (u slug rest : List Char) (hu : u ≠ [])
    (hslug : slug ≠ []) (hu' : ∀ c ∈ u, notSlash c = true)
    (hs' : ∀ c ∈ slug, notSlash c = true) :
    linkSearch ("https://letterboxd.com/".data ++
      (u ++ ("/film/".data ++ (slug ++ '/' :: rest)))) = some slug := by
  have key := linkMatchAt_canonical u slug rest hu hslug hu' hs'
  rw [show "https://letterboxd.com/".data ++
      (u ++ ("/film/".data ++ (slug ++ '/' :: rest))) =
      'h' :: 't' :: 't' :: 'p' :: 's' :: ':' :: '/' :: '/' ::
        ("letterboxd.com/".data ++ (u ++ ("/film/".data ++ (slug ++ '/' :: rest))))
      from rfl]
  rw [linkSearch_cons_of_none _ _ (linkMatchAt_cons_ne _ _ (by decide)),
    linkSearch_cons_of_none _ _ (linkMatchAt_cons_ne _ _ (by decide)),
    linkSearch_cons_of_none _ _ (linkMatchAt_cons_ne _ _ (by decide)),
    linkSearch_cons_of_none _ _ (linkMatchAt_cons_ne _ _ (by decide)),
    linkSearch_cons_of_none _ _ (linkMatchAt_cons_ne _ _ (by decide)),
    linkSearch_cons_of_none _ _ (linkMatchAt_cons_ne _ _ (by decide)),
    linkSearch_cons_of_none _ _ (linkMatchAt_cons_ne _ _ (by decide)),
    linkSearch_cons_of_none _ _ (linkMatchAt_cons_ne _ _ (by decide))]
  exact linkSearch_cons_of_some _ _ _ key

/-- Inversion of a successful match attempt: the input decomposes into the
canonical shape and the captured slug is the run after `/film/`. -/
theorem linkMatchAt_some (l slug : List Char) (h : linkMatchAt l = some slug) :
    ∃ u rest,
      l = "letterboxd.com/".data ++ (u ++ ("/film/".data ++ (slug ++ '/' :: rest))) ∧
      u ≠ [] ∧ slug ≠ [] ∧ (∀ c ∈ u, notSlash c = true) ∧
      (∀ c ∈ slug, notSlash c = true) := by
  rw [linkMatchAt] at h
  cases h1 : dropLit "letterboxd.com/".data l with
  | none => rw [h1] at h; simp at h
  | some r1 =>
    rw [h1] at h
    simp only at h
    split at h
    case isTrue => simp at h
    case isFalse hu0 =>
      cases h2 : dropLit "/film/".data (r1.dropWhile notSlash) with
      | none => rw [h2] at h; simp at h
      | some r2 =>
        rw [h2] at h
        simp only at h
        split at h
        case isTrue => simp at h
        case isFalse hs0 =>
          split at h
          case isTrue => simp at h
          case isFalse hr0 =>
            obtain rfl : r2.takeWhile notSlash = slug := Option.some.inj h
            refine ⟨r1.takeWhile notSlash, (r2.dropWhile notSlash).tail, ?_, ?_, ?_,
              mem_takeWhile notSlash r1, mem_takeWhile notSlash r2⟩
            · have hl : l = "letterboxd.com/".data ++ r1 := dropLit_some _ _ _ h1
              have hr1 : r1 = r1.takeWhile notSlash ++ r1.dropWhile notSlash :=
                (List.takeWhile_append_dropWhile notSlash r1).symm
              have hd1 : r1.dropWhile notSlash = "/film/".data ++ r2 :=
                dropLit_some _ _ _ h2
              have hr2 : r2 = r2.takeWhile notSlash ++ r2.dropWhile notSlash :=
                (List.takeWhile_append_dropWhile notSlash r2).symm
              have hd2 : r2.dropWhile notSlash =
                  '/' :: (r2.dropWhile notSlash).tail := by
                cases hdw : r2.dropWhile notSlash with
                | nil => rw [hdw] at hr0; simp at hr0
                | cons d rest' =>
                  have hd := dropWhile_head_false notSlash r2 d rest' hdw
                  have : d = '/' := by
                    have : (d == '/') = true := by
                      simpa [notSlash] using hd
                    exact eq_of_beq this
                  rw [this]
                  rfl
              rw [hl]
              congr 1
              conv_lhs => rw [hr1]
              congr 1
              rw [hd1]
              congr 1
              conv_lhs => rw [hr2]
              rw [← hd2]
            · intro hnil
              rw [hnil] at hu0
              simp at hu0
            · intro hnil
              rw [hnil] at hs0
              simp at hs0

/-- Inversion of the leftmost search. -/
theorem linkSearch_some (s slug : List Char) (h : linkSearch s = some slug) :
    ∃ pre u rest,
      s = pre ++ ("letterboxd.com/".data ++
        (u ++ ("/film/".data ++ (slug ++ '/' :: rest)))) ∧
      u ≠ [] ∧ slug ≠ [] ∧ (∀ c ∈ u, notSlash c = true) ∧
      (∀ c ∈ slug, notSlash c = true) := by
  induction s with
  | nil => rw [linkSearch] at h; simp at h
  | cons c s' ih =>
    rw [linkSearch] at h
    cases hm : linkMatchAt (c :: s') with
    | some g =>
      rw [hm] at h
      obtain rfl : g = slug := Option.some.inj h
      obtain ⟨u, rest, hshape, hu, hslug, hu', hs'⟩ := linkMatchAt_some _ _ hm
      exact ⟨[], u, rest, by rw [List.nil_append]; exact hshape, hu, hslug, hu', hs'⟩
    | none =>
      rw [hm] at h
      obtain ⟨pre, u, rest, hshape, hu, hslug, hu', hs'⟩ := ih h
      exact ⟨c :: pre, u, rest, by rw [List.cons_append, ← hshape], hu, hslug, hu', hs'⟩

/-- **C6** (corrected). Link Normalizer, amended to the domain and output the
code actually uses: the link regex requires the literal host segment
`letterboxd.com/`, so only links containing
`letterboxd.com/<username>/film/<slug>/` are rewritten, and the canonical
output is the fixed `https://letterboxd.com/film/<slug>/`; every other link —
including the specification's `https://site/...` example — is returned
unchanged. -/
theorem linkNormalizer_contract :
    (∀ u slug : List Char, u ≠ [] → slug ≠ [] → (∀ c ∈ u, c ≠ '/') →
        (∀ c ∈ slug, c ≠ '/') →
        normalizeLink ⟨"https://letterboxd.com/".data ++
            (u ++ ("/film/".data ++ (slug ++ "/".data)))⟩ =
          ⟨"https://letterboxd.com/film/".data ++ slug ++ "/".data⟩) ∧
    (∀ s : String,
        (¬ ∃ pre u slug rest, s.data = pre ++ ("letterboxd.com/".data ++
            (u ++ ("/film/".data ++ (slug ++ '/' :: rest)))) ∧
          u ≠ [] ∧ slug ≠ [] ∧ (∀ c ∈ u, c ≠ '/') ∧ (∀ c ∈ slug, c ≠ '/')) →
        normalizeLink s = s) := by
  constructor
  · intro u slug hu hslug hu' hs'
    rw [normalizeLink]
    rw [show (String.mk ("https://letterboxd.com/".data ++
        (u ++ ("/film/".data ++ (slug ++ "/".data))))).data =
      "https://letterboxd.com/".data ++
        (u ++ ("/film/".data ++ (slug ++ '/' :: []))) from rfl]
    rw [linkSearch_canonical u slug [] hu hslug
      (fun c hc => (notSlash_iff c).mpr (hu' c hc))
      (fun c hc => (notSlash_iff c).mpr (hs' c hc))]
  · intro s hno
    rw [normalizeLink]
    cases hs : linkSearch s.data with
    | none => rfl
    | some slug =>
      exfalso
      obtain ⟨pre, u, rest, hshape, hu, hslug, hu', hs'⟩ := linkSearch_some _ _ hs
      exact hno ⟨pre, u, slug, rest, hshape, hu, hslug,
        fun c hc => (notSlash_iff c).mp (hu' c hc),
        fun c hc => (notSlash_iff c).mp (hs' c hc)⟩

/-- **C6 counterexample**: the claim's own example uses the domain `site`;
the code's regex requires `letterboxd.com`, so the link is returned
unchanged rather than having the username removed. -/
theorem linkNormalizer_cex :
    normalizeLink "https://site/alice/film/parasite-2019/" =
      "https://site/alice/film/parasite-2019/" ∧
    "https://site/alice/film/parasite-2019/" ≠
      "https://site/film/parasite-2019/" := by decide

/-- Witness for `linkNormalizer_contract` at concrete links. -/
theorem linkNormalizer_w :
    normalizeLink ⟨"https://letterboxd.com/".data ++
        ("alice".data ++ ("/film/".data ++ ("parasite-2019".data ++ "/".data)))⟩ =
      ⟨"https://letterboxd.com/film/".data ++ "parasite-2019".data ++ "/".data⟩ ∧
    normalizeLink "mailto:bob" = "mailto:bob" := by
  refine ⟨linkNormalizer_contract.1 "alice".data "parasite-2019".data
      (by decide) (by decide) (by decide) (by decide), ?_⟩
  apply linkNormalizer_contract.2
  rintro ⟨pre, u, slug, rest, hshape, hu, hslug, -, -⟩
  have hlen := congrArg List.length hshape
  have hu1 := List.length_pos.mpr hu
  have hs1 := List.length_pos.mpr hslug
  simp at hlen
  omega

theorem strFoldl_shift (l : List String) :
    ∀ init : String, l.foldl (fun r s => r ++ s) init = init ++ String.join l := by
  induction l with
  | nil =>
    intro init
    rw [List.foldl_nil, show String.join [] = "" from rfl, String.append_empty]
  | cons a l' ih =>
    intro init
    rw [List.foldl_cons, ih (init ++ a),
      show String.join (a :: l') = a ++ String.join l' from by
        rw [String.join, List.foldl_cons, String.empty_append]
        exact ih a,
      String.append_assoc]

theorem foldl_append_eq_join {α : Type} (f : α → String) (l : List α)
    (init : String) :
    l.foldl (fun acc x => acc ++ f x) init = init ++ String.join (l.map f) := by
  induction l generalizing init with
  | nil => rw [List.foldl_nil, List.map_nil, show String.join [] = "" from rfl,
      String.append_empty]
  | cons a l' ih =>
    rw [List.foldl_cons, ih (init ++ f a), List.map_cons,
      show String.join (f a :: l'.map f) = f a ++ String.join (l'.map f) from by
        rw [String.join, List.foldl_cons, String.empty_append]
        exact strFoldl_shift (l'.map f) (f a),
      String.append_assoc]

theorem sortedKeys_sorted (m : Aggregate) :
    (sortedKeys m).Sorted (fun a b : String => a ≤ b) :=
  List.sorted_insertionSort _ _

theorem sortedKeys_perm (m : Aggregate) :
    (sortedKeys m).Perm (m.map Prod.fst) :=
  List.perm_insertionSort _ _

theorem sortedKeys_eq_of_perm (m₁ m₂ : Aggregate) (h : m₁.Perm m₂) :
    sortedKeys m₁ = sortedKeys m₂ :=
  List.eq_of_perm_of_sorted
    (((sortedKeys_perm m₁).trans (h.map Prod.fst)).trans (sortedKeys_perm m₂).symm)
    (sortedKeys_sorted m₁) (sortedKeys_sorted m₂)

/-- In a map with distinct keys, `find?` returns exactly the entry carrying
the key. -/
theorem find?_unique (m : Aggregate) (k : String) (e : String × MovieGroup)
    (hn : (m.map Prod.fst).Nodup) (he : e ∈ m) (hk : e.1 = k) :
    m.find? (fun p => p.1 == k) = some e := by
  induction m with
  | nil => simp at he
  | cons p m' ih =>
    rw [List.map_cons, List.nodup_cons] at hn
    rcases List.mem_cons.mp he with rfl | he'
    · have hb : (e.1 == k) = true := beq_iff_eq.mpr hk
      simp [List.find?_cons, hb]
    · have hp : (p.1 == k) = false := by
        rw [beq_eq_false_iff_ne]
        intro hpk
        exact hn.1 (by rw [hpk, ← hk]; exact List.mem_map_of_mem _ he')
      simp [List.find?_cons, hp, ih hn.2 he']

theorem find?_key_eq (m : Aggregate) (k : String) (e : String × MovieGroup)
    (h : m.find? (fun p => p.1 == k) = some e) : e ∈ m ∧ e.1 = k := by
  have hb := List.find?_some h
  exact ⟨List.mem_of_find?_eq_some h, by simpa using hb⟩

theorem find?_perm (m₁ m₂ : Aggregate) (k : String)
    (hn : (m₁.map Prod.fst).Nodup) (h : m₁.Perm m₂) :
    m₁.find? (fun p => p.1 == k) = m₂.find? (fun p => p.1 == k) := by
  have hn₂ : (m₂.map Prod.fst).Nodup := ((h.map Prod.fst).nodup_iff).mp hn
  cases h1 : m₁.find? (fun p => p.1 == k) with
  | some e =>
    obtain ⟨he, hk⟩ := find?_key_eq _ _ _ h1
    rw [find?_unique m₂ k e hn₂ (h.mem_iff.mp he) hk]
  | none =>
    cases h2 : m₂.find? (fun p => p.1 == k) with
    | none => rfl
    | some e =>
      obtain ⟨he, hk⟩ := find?_key_eq _ _ _ h2
      have := find?_unique m₁ k e hn (h.mem_iff.mpr he) hk
      rw [h1] at this
      exact absurd this (by simp)

theorem movieBlock_perm (m₁ m₂ : Aggregate) (k : String)
    (hn : (m₁.map Prod.fst).Nodup) (h : m₁.Perm m₂) :
    movieBlock m₁ k = movieBlock m₂ k := by
  unfold movieBlock
  rw [find?_perm m₁ m₂ k hn h]

/-- **C2** (confirmed). Digest Renderer contract: the empty aggregate renders
the fixed sentence; a non-empty aggregate renders the fixed header followed
by one block per movie in ascending lexicographic title order — independent
of the aggregate's insertion order — each block being the title/link header,
one line per stored review in insertion order ("watched" phrasing for an
empty rating, "rated" phrasing with the raw token and the scorer's reaction
symbol otherwise), and a blank separator line. The renderer is a pure
function (`create_message` does no I/O). -/
theorem digestRenderer_contract :
    create_message [] = "No movies watched this week 😱" ∧
    (∀ m : Aggregate, m ≠ [] →
      create_message m = "*🍿 Weekly Movie Round-up 🍿*\n\n" ++
          String.join ((sortedKeys m).map (movieBlock m)) ∧
        (sortedKeys m).Sorted (fun a b : String => a ≤ b) ∧
        (sortedKeys m).Perm (m.map Prod.fst)) ∧
    (∀ m₁ m₂ : Aggregate, (m₁.map Prod.fst).Nodup → m₁.Perm m₂ →
      create_message m₁ = create_message m₂) ∧
    (∀ (m : Aggregate) (movie : String) (p : MovieGroup),
      (m.map Prod.fst).Nodup → (movie, p) ∈ m →
      movieBlock m movie = "🎬 *" ++ movie ++ "*\n" ++ p.general_link ++ "\n" ++
        String.join (p.reviews.map reviewLine) ++ "\n") ∧
    (∀ r : ReviewEntry, r.rating_raw = "" →
      reviewLine r = "• *" ++ r.friend_name ++ "* watched 🍿\n") ∧
    (∀ r : ReviewEntry, r.rating_raw ≠ "" →
      reviewLine r = "• *" ++ r.friend_name ++ "* rated (" ++ r.rating_raw ++
        ") " ++ get_reaction_emoji (calculate_score r.rating_raw) ++ "\n") := by
  refine ⟨rfl, fun m hm => ?_, fun m₁ m₂ hn h => ?_, fun m movie p hn hmem => ?_,
    fun r h => by rw [reviewLine, if_pos h], fun r h => by rw [reviewLine, if_neg h]⟩
  · have he : m.isEmpty = false := by
      cases m with
      | nil => exact absurd rfl hm
      | cons a l => rfl
    refine ⟨?_, sortedKeys_sorted m, sortedKeys_perm m⟩
    rw [create_message, if_neg (by simp [he])]
    exact foldl_append_eq_join (movieBlock m) (sortedKeys m) _
  · by_cases h0 : m₁ = []
    · subst h0
      rw [List.Perm.eq_nil h.symm]
    · have h0₂ : m₂ ≠ [] := fun h2 => h0 (List.Perm.eq_nil (h2 ▸ h))
      have e1 : m₁.isEmpty = false := by
        cases m₁ with
        | nil => exact absurd rfl h0
        | cons a l => rfl
      have e2 : m₂.isEmpty = false := by
        cases m₂ with
        | nil => exact absurd rfl h0₂
        | cons a l => rfl
      rw [create_message, create_message, if_neg (by simp [e1]),
        if_neg (by simp [e2]), sortedKeys_eq_of_perm m₁ m₂ h]
      exact List.foldl_ext _ _ _
        (fun acc k _ => by rw [movieBlock_perm m₁ m₂ k hn h])
  · unfold movieBlock
    rw [find?_unique m movie (movie, p) hn hmem rfl]
    simp only
    rw [foldl_append_eq_join reviewLine p.reviews "", String.empty_append]

/-- Witness for `digestRenderer_contract` at a concrete two-movie aggregate. -/
theorem digestRenderer_contract_w :
    create_message [("B", ⟨"lb", [⟨"Bob", ""⟩]⟩), ("A", ⟨"la", [⟨"Al", "★"⟩]⟩)] =
      create_message
        [("A", ⟨"la", [⟨"Al", "★"⟩]⟩), ("B", ⟨"lb", [⟨"Bob", ""⟩]⟩)] ∧
    reviewLine ⟨"Bob", ""⟩ = "• *" ++ "Bob" ++ "* watched 🍿\n" :=
  ⟨digestRenderer_contract.2.2.1 _ _ (by decide) (List.Perm.swap _ _ _),
    digestRenderer_contract.2.2.2.2.1 ⟨"Bob", ""⟩ rfl⟩

theorem totalReviews_mapInsert (m : Aggregate) (k : String) (e : ReviewEntry)
    (link : String) :
    totalReviews (mapInsert m k e link) = totalReviews m + 1 := by
  induction m with
  | nil => simp [mapInsert, totalReviews]
  | cons p rest ih =>
    rw [mapInsert]
    by_cases hp : p.1 = k
    · rw [if_pos hp]
      simp [totalReviews]
      omega
    · rw [if_neg hp]
      simp only [totalReviews, List.map_cons, List.sum_cons] at ih ⊢
      omega

/-- Appending a review to an existing key leaves every group's link — in
particular the one recorded when the group was created — unchanged. -/
theorem mapInsert_links (m : Aggregate) (k : String) (e : ReviewEntry)
    (link : String) (hk : k ∈ m.map Prod.fst) :
    (mapInsert m k e link).map (fun p => (p.1, p.2.general_link)) =
      m.map (fun p => (p.1, p.2.general_link)) := by
  induction m with
  | nil => simp at hk
  | cons p rest ih =>
    rw [mapInsert]
    by_cases hp : p.1 = k
    · rw [if_pos hp]
      simp
    · rw [if_neg hp]
      have hk' : k ∈ rest.map Prod.fst := by
        rw [List.map_cons] at hk
        rcases List.mem_cons.mp hk with h | h
        · exact absurd h.symm hp
        · exact h
      simp [ih hk']

/-- **C4** (confirmed). Seven-day window: an item with a parsable publish
instant `t` is included in the aggregate exactly when
`t ≥ now − 7 days`; items strictly older are skipped, and an item exactly at
the boundary is included. -/
theorem sevenDayWindow (pd : String → Option Int) (now : Int) (friend : String)
    (m : Aggregate) (item : RssItem) (ds : String) (t : Int)
    (hds : item.pub_date = some ds) (hpd : pd ds = some t) :
    (now - sevenDaysSecs ≤ t →
      processItem pd now friend m item =
        mapInsert m (itemCleanTitle item) ⟨friend, itemRatingRaw item⟩
          (itemLink item)) ∧
    (t < now - sevenDaysSecs → processItem pd now friend m item = m) ∧
    (t = now - sevenDaysSecs →
      processItem pd now friend m item =
        mapInsert m (itemCleanTitle item) ⟨friend, itemRatingRaw item⟩
          (itemLink item)) ∧
    totalReviews (processItem pd now friend m item) =
      totalReviews m + (if now - sevenDaysSecs ≤ t then 1 else 0) := by
  refine ⟨fun h => by simp only [processItem, hds, hpd, if_pos h],
    fun h => by simp only [processItem, hds, hpd, if_neg (not_le.mpr h)],
    fun h => by simp only [processItem, hds, hpd, if_pos (le_of_eq h.symm)], ?_⟩
  by_cases h : now - sevenDaysSecs ≤ t
  · simp only [processItem, hds, hpd, if_pos h, totalReviews_mapInsert]
  · simp only [processItem, hds, hpd, if_neg h]
    simp

/-- Witness for `sevenDayWindow`: an item exactly at the boundary
(`t = now − 7 days`) is inserted. -/
theorem sevenDayWindow_w :
    processItem pdZero 604800 "F" [] ⟨some "Dune", some "", some "d"⟩ =
      mapInsert [] (itemCleanTitle ⟨some "Dune", some "", some "d"⟩)
        ⟨"F", itemRatingRaw ⟨some "Dune", some "", some "d"⟩⟩
        (itemLink ⟨some "Dune", some "", some "d"⟩) :=
  (sevenDayWindow pdZero 604800 "F" [] _ "d" 0 rfl rfl).2.2.1
    (by norm_num [sevenDaysSecs])

/-- **C8** (confirmed). Skip-and-continue: an item whose publish date does
not parse is skipped and the rest of the feed is still folded in; a roster
record whose feed fetch fails is skipped and the rest of the roster is still
processed. Neither failure aborts the run, and the model performs exactly
one fetch per record (no retries). -/
theorem skipAndContinue :
    (∀ (pd : String → Option Int) (now : Int) (friend : String) (m : Aggregate)
        (item : RssItem) (ds : String), item.pub_date = some ds → pd ds = none →
        processItem pd now friend m item = m) ∧
    (∀ (pd : String → Option Int) (now : Int) (friend : String) (m : Aggregate)
        (item : RssItem) (rest : List RssItem) (ds : String),
        item.pub_date = some ds → pd ds = none →
        (item :: rest).foldl (processItem pd now friend) m =
          rest.foldl (processItem pd now friend) m) ∧
    (∀ (pd : String → Option Int) (fetch : String → Option (List RssItem))
        (now : Int) (record : List String) (rest : List (List String))
        (m : Aggregate) (u : String),
        record[1]? = some u → fetch (feedUrl (rustTrim u)) = none →
        aggregateRoster pd fetch now (record :: rest) m =
          aggregateRoster pd fetch now rest m) := by
  refine ⟨fun pd now friend m item ds h1 h2 => by simp only [processItem, h1, h2],
    fun pd now friend m item rest ds h1 h2 => by
      rw [List.foldl_cons]
      simp only [processItem, h1, h2],
    fun pd fetch now record rest m u h1 h2 => by
      rw [aggregateRoster, h1]
      simp only [h2]⟩

/-- Witness for `skipAndContinue`: a failing fetch skips the record. -/
theorem skipAndContinue_w :
    aggregateRoster pdZero fetchNone 0 [["A", "a"]] [] =
      aggregateRoster pdZero fetchNone 0 [] [] :=
  skipAndContinue.2.2 pdZero fetchNone 0 ["A", "a"] [] [] "a" rfl rfl

/-- **C9** (confirmed). Fatal missing username: a roster containing any
record without a second field makes the whole aggregation return an error
(`record.get(1).context("No username")?`), so no digest is built from any of
the rows; `main` then substitutes the default empty map
(`unwrap_or_default`) and the digest is the fixed empty-week sentence. A
missing first field is tolerated by substituting the placeholder
`"Unknown"`. -/
theorem fatalMissingUsername :
    (∀ (pd : String → Option Int) (fetch : String → Option (List RssItem))
        (now : Int) (roster : List (List String)) (m : Aggregate),
        (∃ r ∈ roster, r[1]? = (none : Option String)) →
        aggregateRoster pd fetch now roster m = none) ∧
    (∀ (pd : String → Option Int) (fetch : String → Option (List RssItem))
        (now : Int) (roster : List (List String)),
        (∃ r ∈ roster, r[1]? = (none : Option String)) →
        mainDigest pd fetch now roster = "No movies watched this week 😱") ∧
    (∀ record : List String, record[0]? = (none : Option String) →
        friendNameOf record = "Unknown") := by
  have key : ∀ (pd : String → Option Int)
      (fetch : String → Option (List RssItem)) (now : Int)
      (roster : List (List String)),
      (∃ r ∈ roster, r[1]? = (none : Option String)) →
      ∀ m, aggregateRoster pd fetch now roster m = none := by
    intro pd fetch now roster
    induction roster with
    | nil =>
      rintro ⟨r, hr, -⟩
      simp at hr
    | cons r0 rest ih =>
      rintro ⟨r, hr, hnone⟩ m
      rcases List.mem_cons.mp hr with rfl | hr'
      · rw [aggregateRoster, hnone]
      · rw [aggregateRoster]
        cases h1 : r0[1]? with
        | none => rfl
        | some username =>
          simp only
          cases h2 : fetch (feedUrl (rustTrim username)) with
          | none => exact ih ⟨r, hr', hnone⟩ m
          | some items => exact ih ⟨r, hr', hnone⟩ _
  refine ⟨fun pd fetch now roster m h => key pd fetch now roster h m,
    fun pd fetch now roster h => ?_,
    fun record h => by rw [friendNameOf, h]; rfl⟩
  rw [mainDigest, get_movie_map, key pd fetch now roster h []]
  rfl

/-- Witness for `fatalMissingUsername`: a one-row roster whose row has no
username field yields the empty-week digest. -/
theorem fatalMissingUsername_w :
    mainDigest pdZero fetchNone 0 [["OnlyName"]] =
      "No movies watched this week 😱" :=
  fatalMissingUsername.2.1 pdZero fetchNone 0 [["OnlyName"]]
    ⟨["OnlyName"], by simp, rfl⟩

/-- **C10** (confirmed). Totality on absent item fields: an item with no
publish date is silently skipped; an in-window item with no title and no
link is aggregated under the placeholder title `"Unknown Movie"` with the
empty string as its link, which the normalizer passes through unchanged. -/
theorem absentFieldsTotality :
    (∀ (pd : String → Option Int) (now : Int) (friend : String) (m : Aggregate)
        (item : RssItem), item.pub_date = none →
        processItem pd now friend m item = m) ∧
    (∀ (pd : String → Option Int) (now : Int) (friend : String) (m : Aggregate)
        (ds : String) (t : Int), pd ds = some t → now - sevenDaysSecs ≤ t →
        processItem pd now friend m ⟨none, none, some ds⟩ =
          mapInsert m "Unknown Movie" ⟨friend, ""⟩ "") ∧
    normalizeLink "" = "" := by
  refine ⟨fun pd now friend m item h => by simp only [processItem, h],
    fun pd now friend m ds t h1 h2 => ?_, rfl⟩
  simp only [processItem, h1, if_pos h2]
  rw [show itemCleanTitle ⟨none, none, some ds⟩ = "Unknown Movie" from rfl,
    show itemRatingRaw ⟨none, none, some ds⟩ = "" from rfl,
    show itemLink ⟨none, none, some ds⟩ = "" from rfl]

/-- Witness for `absentFieldsTotality` at a concrete in-window item. -/
theorem absentFieldsTotality_w :
    processItem pdZero 0 "F" [] ⟨none, none, some "d"⟩ =
      mapInsert [] "Unknown Movie" ⟨"F", ""⟩ "" :=
  absentFieldsTotality.2.1 pdZero 0 "F" [] "d" 0 rfl
    (by norm_num [sevenDaysSecs])

/-- **C3** (confirmed). Aggregation grouping and order: two roster rows whose
single in-window feed items parse to the same clean title produce exactly one
group for that title, holding the two reviews in roster order, with the
canonical link taken from the first (creating) entry; and appending to an
existing key never changes any group's link. -/
theorem aggregationGrouping (pd : String → Option Int)
    (fetch : String → Option (List RssItem)) (now : Int)
    (n1 u1 n2 u2 : String) (i1 i2 : RssItem) (d1 d2 : String) (t1 t2 : Int)
    (T s1 s2 : List Char)
    (hf1 : fetch (feedUrl (rustTrim u1)) = some [i1])
    (hf2 : fetch (feedUrl (rustTrim u2)) = some [i2])
    (hd1 : i1.pub_date = some d1) (hp1 : pd d1 = some t1)
    (ht1 : now - sevenDaysSecs ≤ t1)
    (hd2 : i2.pub_date = some d2) (hp2 : pd d2 = some t2)
    (ht2 : now - sevenDaysSecs ≤ t2)
    (hT1 : parseTitleChars (i1.title.getD "Unknown Movie").data = (T, s1))
    (hT2 : parseTitleChars (i2.title.getD "Unknown Movie").data = (T, s2)) :
    get_movie_map pd fetch now [[n1, u1], [n2, u2]] =
      some [(⟨T⟩, ⟨itemLink i1,
        [⟨rustTrim n1, ⟨s1⟩⟩, ⟨rustTrim n2, ⟨s2⟩⟩]⟩)] ∧
    (∀ (m : Aggregate) (k : String) (e : ReviewEntry) (link : String),
      k ∈ m.map Prod.fst →
      (mapInsert m k e link).map (fun p => (p.1, p.2.general_link)) =
        m.map (fun p => (p.1, p.2.general_link))) := by
  refine ⟨?_, fun m k e link hk => mapInsert_links m k e link hk⟩
  have hclean1 : itemCleanTitle i1 = ⟨T⟩ := by rw [itemCleanTitle, hT1]
  have hclean2 : itemCleanTitle i2 = ⟨T⟩ := by rw [itemCleanTitle, hT2]
  have hrate1 : itemRatingRaw i1 = ⟨s1⟩ := by rw [itemRatingRaw, hT1]
  have hrate2 : itemRatingRaw i2 = ⟨s2⟩ := by rw [itemRatingRaw, hT2]
  rw [get_movie_map, aggregateRoster,
    show ([n1, u1] : List String)[1]? = some u1 from rfl]
  simp only [hf1]
  rw [show friendNameOf [n1, u1] = rustTrim n1 from rfl, List.foldl_cons,
    List.foldl_nil]
  simp only [processItem, hd1, hp1, if_pos ht1, hclean1, hrate1]
  rw [show mapInsert [] ⟨T⟩ ⟨rustTrim n1, ⟨s1⟩⟩ (itemLink i1) =
      [(⟨T⟩, ⟨itemLink i1, [⟨rustTrim n1, ⟨s1⟩⟩]⟩)] from rfl]
  rw [aggregateRoster, show ([n2, u2] : List String)[1]? = some u2 from rfl]
  simp only [hf2]
  rw [show friendNameOf [n2, u2] = rustTrim n2 from rfl, List.foldl_cons,
    List.foldl_nil]
  simp only [processItem, hd2, hp2, if_pos ht2, hclean2, hrate2]
  rw [mapInsert, if_pos rfl]
  rw [aggregateRoster]
  simp

/-- Witness for `aggregationGrouping`: the end-to-end two-friend scenario. -/
theorem aggregationGrouping_w :
    get_movie_map pdZero fetchAB 0 [["Alice", "alice"], ["Bob", "bob"]] =
      some [("Dune", ⟨"https://letterboxd.com/film/dune/",
        [⟨"Alice", "★★★★"⟩, ⟨"Bob", ""⟩]⟩)] := by
  have h := (aggregationGrouping pdZero fetchAB 0 "Alice" "alice" "Bob" "bob"
    ⟨some "Dune - ★★★★", some "https://letterboxd.com/alice/film/dune/",
      some "d1"⟩
    ⟨some "Dune", some "https://letterboxd.com/bob/film/dune/", some "d2"⟩
    "d1" "d2" 0 0 "Dune".data "★★★★".data []
    rfl rfl rfl rfl (by norm_num [sevenDaysSecs]) rfl rfl
    (by norm_num [sevenDaysSecs]) (by decide) (by decide)).1
  rw [h]
  rfl

